import Mathlib

/-!
Shallow embedding of `deepmerge.py`, a utility that merges one or more
source directory trees into a destination tree.  Filename collisions are
resolved by modification time and content hash: the newest version of a
file keeps the plain name, and older, content-distinct versions are kept
under names carrying a formatted timestamp suffix.  An in-memory ledger
(`dest_hashes` in the source) maps each destination path to the list of
content digests observed at that path during the run, and is used to
avoid writing duplicate preservation copies.

Modelling conventions:
* A file is its content (a `String` standing for the byte string) plus an
  integer modification time (seconds; the specification fixes seconds
  resolution for timestamps).
* One destination directory is an association list from name to entry;
  an entry is a regular file or a subdirectory.
* The digest ledger is an association list from destination path to the
  list of digests appended so far.
* Fallible filesystem operations return `Except String`.
-/

namespace Deepmerge

/-- Digest of a file's byte content.  `hashlib.md5` is modelled as an
injective fingerprint: two contents collide exactly when they are equal.
The algorithm only ever compares digests for equality and stores them,
so this abstraction preserves every observation it makes. -/
def md5 (content : String) : String := content

/-- Zero-pad a natural number to two digits, as `strftime` does for the
fields `%m`, `%d`, `%H`, `%M` and `%S`. -/
def pad2 (n : Nat) : String := if n < 10 then "0" ++ toString n else toString n

/-- Convert a count of days since 1970-01-01 to a civil
`(year, month, day)` triple of the proleptic Gregorian calendar
(Howard Hinnant's `civil_from_days` algorithm). -/
def civil_from_days (z0 : Int) : Int × Nat × Nat :=
  let z := z0 + 719468
  let era := Int.ediv z 146097
  let doe := (z - era * 146097).toNat
  let yoe := (doe - doe / 1460 + doe / 36524 - doe / 146096) / 365
  let y := (yoe : Int) + era * 400
  let doy := doe - (365 * yoe + yoe / 4 - yoe / 100)
  let mp := (5 * doy + 2) / 153
  let d := doy - (153 * mp + 2) / 5 + 1
  let m := if mp < 10 then mp + 3 else mp - 9
  (if m ≤ 2 then y + 1 else y, m, d)

/-- Model of `ts_str` (deepmerge.py, lines 26–35): format a timestamp as
`%Y-%m-%d--at--%H-%M-%S`.  `datetime.datetime.fromtimestamp` interprets
the timestamp in the machine's local timezone; the model fixes that
timezone to UTC.  Years are rendered without zero-padding, which agrees
with `%Y` for the four-digit years of realistic timestamps. -/
def ts_str (timestamp : Int) : String :=
  let days := Int.ediv timestamp 86400
  let secs := (Int.emod timestamp 86400).toNat
  let c := civil_from_days days
  let hh := secs / 3600
  let mm := secs / 60 % 60
  let ss := secs % 60
  toString c.1 ++ "-" ++ pad2 c.2.1 ++ "-" ++ pad2 c.2.2 ++ "--at--" ++
    pad2 hh ++ "-" ++ pad2 mm ++ "-" ++ pad2 ss

/-- An entry of a destination directory: a regular file with content and
modification time, or a subdirectory. -/
inductive Entry where
  | file (content : String) (mtime : Int)
  | dir
deriving DecidableEq, Repr

/-- A destination directory listing: association list from name to entry.
On a real filesystem names are unique; the operations below read and
replace the first occurrence of a name, which agrees with that. -/
abbrev Dir := List (String × Entry)

/-- Look up the entry stored under a name. -/
def lookupEntry : Dir → String → Option Entry
  | [], _ => none
  | (n, e) :: rest, m => if n = m then some e else lookupEntry rest m

/-- Store an entry under a name, replacing an existing binding of that
name (file overwrite) or appending a new binding. -/
def setEntry : Dir → String → Entry → Dir
  | [], n, e => [(n, e)]
  | (n', e') :: rest, n, e =>
      if n' = n then (n, e) :: rest else (n', e') :: setEntry rest n e

/-- Remove the binding of a name (the effect of `os.rename` on the source
name of a rename). -/
def removeEntry : Dir → String → Dir
  | [], _ => []
  | (n', e') :: rest, n => if n' = n then rest else (n', e') :: removeEntry rest n

/-- The modification time `os.stat` reports for an entry.  A directory's
reported time is irrelevant to the algorithm (every branch that would
use it fails earlier, when the directory is opened for hashing), so the
model fixes it to `0`. -/
def statMtime : Entry → Int
  | .file _ t => t
  | .dir => 0

/-- Read the content of the file stored under a name, as `open(path,
'rb').read()` does: opening a directory or a missing path raises. -/
def readFile (d : Dir) (n : String) : Except String String :=
  match lookupEntry d n with
  | some (.file c _) => .ok c
  | some .dir => .error ("IsADirectoryError: " ++ n)
  | none => .error ("FileNotFoundError: " ++ n)

/-- Write a file (the effect of `shutil.copy2`, which also preserves the
source modification time on the copy).  `copy2` onto a path that is an
existing directory would place the copy inside that directory, which a
single-directory listing cannot represent, so the model reports it as an
error; no merge decision reaches that case in the properties below. -/
def write_file (d : Dir) (n : String) (content : String) (mtime : Int) :
    Except String Dir :=
  match lookupEntry d n with
  | some .dir => .error ("cannot copy onto directory: " ++ n)
  | _ => .ok (setEntry d n (.file content mtime))

/-- Rename an entry (the effect of `shutil.move` within one directory).
On POSIX, renaming onto an existing file silently replaces it.  Moving
onto an existing directory would relocate the file inside that
directory, which the model reports as an error; no merge decision
reaches that case in the properties below. -/
def move_entry (d : Dir) (src dst : String) : Except String Dir :=
  match lookupEntry d src with
  | none => .error ("FileNotFoundError: " ++ src)
  | some e =>
      match lookupEntry d dst with
      | some .dir => .error ("cannot move onto directory: " ++ dst)
      | _ => .ok (setEntry (removeEntry d src) dst e)

/-- Model of lines 80–81 (`if not os.path.isdir(dest): os.mkdir(dest)`):
make sure a destination directory exists.  When the path is occupied by
a regular file, `os.path.isdir` is false and `os.mkdir` raises
`FileExistsError`. -/
def ensure_dest_dir (d : Dir) (n : String) : Except String Dir :=
  match lookupEntry d n with
  | some .dir => .ok d
  | some (.file _ _) => .error ("FileExistsError: " ++ n)
  | none => .ok (setEntry d n .dir)

/-- The digest ledger (`dest_hashes`): association list from destination
path to the list of digests appended for that path during the run. -/
abbrev Ledger := List (String × List String)

/-- Look up the digest list recorded for a path. -/
def ledgerGet : Ledger → String → Option (List String)
  | [], _ => none
  | (p, hs) :: rest, q => if p = q then some hs else ledgerGet rest q

/-- Replace (or create) the digest list recorded for a path. -/
def ledgerSet : Ledger → String → List String → Ledger
  | [], p, hs => [(p, hs)]
  | (p', hs') :: rest, p, hs =>
      if p' = p then (p, hs) :: rest else (p', hs') :: ledgerSet rest p hs

/-- The pure ledger effect of `assure_dest_hash` once the digest `h` of
the file at `path` is known: create the path's entry if missing, then
append `h` if it is not already present. -/
def assureLedger (led : Ledger) (path h : String) : Ledger :=
  let led0 := if (ledgerGet led path).isSome then led else ledgerSet led path []
  let hs := (ledgerGet led0 path).getD []
  if hs.contains h then led0 else ledgerSet led0 path (hs ++ [h])

/-- Model of `assure_dest_hash` (deepmerge.py, lines 38–59): make sure
`path` is represented in the ledger, read and hash the file currently at
`path`, add the digest to the path's list if not already present, and
return the digest.  Reading fails on a directory or a missing file; the
run aborts in that case, so the ledger mutation Python performs before
the failed read is unobservable and the model drops it. -/
def assure_dest_hash (fs : Dir) (led : Ledger) (path : String) :
    Except String (Ledger × String) :=
  match lookupEntry fs path with
  | some (.file c _) => .ok (assureLedger led path (md5 c), md5 c)
  | some .dir => .error ("IsADirectoryError: " ++ path)
  | none => .error ("FileNotFoundError: " ++ path)

/-- A file of a source directory as the walk visits it: its name, its
content and its modification time. -/
structure SrcFile where
  name : String
  content : String
  mtime : Int
deriving DecidableEq, Repr

/-- The mutable state the merge acts on: the destination directory
listing and the digest ledger. -/
structure MergeState where
  dest : Dir
  ledger : Ledger
deriving DecidableEq, Repr

/-- Model of the per-file merge step (deepmerge.py, lines 90–143).
Given the current destination state and one source file, it returns the
new state together with the source file as the step leaves it (the
newer-but-identical branch runs `os.utime` on the source file).

Branches, in source order:
* destination name absent (lines 92–98): copy the source file over,
  then `assure_dest_hash` the copy;
* conflict (lines 99–143): stat both sides, hash the source, hash the
  destination through `assure_dest_hash`, then
  - source strictly newer, identical digests (lines 114–116):
    `os.utime(source, (s_mod, s_mod))` — note it writes `s_mod`, the
    source's own current time, back onto the source file;
  - source strictly newer, different digests (lines 117–127): rename the
    destination file to `name--<ts_str d_mod>`, copy the source over the
    vacated name, and append the source digest to the ledger
    unconditionally;
  - destination strictly newer (lines 128–143): skip when the source
    digest is already in the path's ledger list, otherwise copy the
    source to `name--<ts_str s_mod>` and append its digest;
  - equal times (implicit final else): no further action. -/
def merge_file (st : MergeState) (s : SrcFile) :
    Except String (MergeState × SrcFile) :=
  match lookupEntry st.dest s.name with
  | none =>
      let dest1 := setEntry st.dest s.name (.file s.content s.mtime)
      match assure_dest_hash dest1 st.ledger s.name with
      | .error msg => .error msg
      | .ok (led1, _) => .ok (⟨dest1, led1⟩, s)
  | some e =>
      let s_mod := s.mtime
      let d_mod := statMtime e
      let s_hash := md5 s.content
      match assure_dest_hash st.dest st.ledger s.name with
      | .error msg => .error msg
      | .ok (led1, d_hash) =>
          if s_mod > d_mod then
            if s_hash = d_hash then
              .ok (⟨st.dest, led1⟩, { s with mtime := s_mod })
            else
              match move_entry st.dest s.name (s.name ++ "--" ++ ts_str d_mod) with
              | .error msg => .error msg
              | .ok dest1 =>
                  let dest2 := setEntry dest1 s.name (.file s.content s.mtime)
                  let led2 := ledgerSet led1 s.name
                    ((ledgerGet led1 s.name).getD [] ++ [s_hash])
                  .ok (⟨dest2, led2⟩, s)
          else if s_mod ≠ d_mod then
            if ((ledgerGet led1 s.name).getD []).contains s_hash then
              .ok (⟨st.dest, led1⟩, s)
            else
              match write_file st.dest (s.name ++ "--" ++ ts_str s_mod) s.content s.mtime with
              | .error msg => .error msg
              | .ok dest1 =>
                  let led2 := ledgerSet led1 s.name
                    ((ledgerGet led1 s.name).getD [] ++ [s_hash])
                  .ok (⟨dest1, led2⟩, s)
          else
            .ok (⟨st.dest, led1⟩, s)

/-- Process a sequence of source-file visits in order, threading the
state; returns the final state and the source files as the run leaves
them.  This is the file-handling part of `recurse_dir`'s loop over one
destination directory; visits coming from several source roots appear
concatenated in root order, as the main loop (lines 164–166) produces
them. -/
def run_visits : MergeState → List SrcFile → Except String (MergeState × List SrcFile)
  | st, [] => .ok (st, [])
  | st, s :: rest =>
      match merge_file st s with
      | .error msg => .error msg
      | .ok (st1, s1) =>
          match run_visits st1 rest with
          | .error msg => .error msg
          | .ok (st2, rest1) => .ok (st2, s1 :: rest1)

/-- Outcome of the main entry point (deepmerge.py, lines 147–168):
either argument validation fails with an exit code and an error message
and no source root is processed, or validation passes and every given
source root is processed in order, with exit status 0. -/
inductive MainOutcome where
  | argError (exitCode : Int) (message : String)
  | completed (processed : List String)
deriving DecidableEq, Repr

/-- Model of the main block (deepmerge.py, lines 147–168).  `argparse`
binds `source` with `nargs='*'`, so `args.source` is always a list (the
`issubclass` check on line 154 can never fail and is omitted).  Each
source path is checked with `os.path.isdir` before any merge work; the
first failure prints an error naming the path and exits with status
`-1`.  Only after all checks pass does the loop over source roots run,
and the process then finishes with status 0. -/
def main_model (sources : List String) (isdir : String → Bool) : MainOutcome :=
  match sources.find? (fun src => !(isdir src)) with
  | some bad => .argError (-1) ("ERROR: source path " ++ bad ++ " does not exist")
  | none => .completed sources

/-- Exit status of a main outcome. -/
def exitCodeOf : MainOutcome → Int
  | .argError code _ => code
  | .completed _ => 0

/-- The name `n` is `base` with an attached timestamp suffix of the form
the merge generates for preserved copies. -/
def tsSuffixed (base n : String) : Prop := ∃ t : Int, n = base ++ "--" ++ ts_str t

/-- The name `n` is the destination path `base` itself or a
timestamp-suffixed form of it. -/
def AtOrSuffix (base n : String) : Prop := n = base ∨ tsSuffixed base n

/-- Some file stored at `base`, or at a timestamp-suffixed sibling of
`base`, has digest `h`. -/
def HasDigest (d : Dir) (base h : String) : Prop :=
  ∃ n c t, AtOrSuffix base n ∧ lookupEntry d n = some (.file c t) ∧ md5 c = h

/-- A visit is safe when it is not an equal-timestamp conflict, not a
conflict with a directory, and any preserved-copy name it would write to
(the rename target of the newer-and-different branch, the copy target of
the older-and-different branch) is not already occupied. -/
def visit_safe (st : MergeState) (s : SrcFile) : Bool :=
  match lookupEntry st.dest s.name with
  | none => true
  | some .dir => false
  | some (.file c t) =>
      if s.mtime = t then false
      else if s.mtime > t then
        decide (md5 s.content = md5 c) ||
          (lookupEntry st.dest (s.name ++ "--" ++ ts_str t)).isNone
      else
        ((ledgerGet (assureLedger st.ledger s.name (md5 c)) s.name).getD []).contains
            (md5 s.content) ||
          (lookupEntry st.dest (s.name ++ "--" ++ ts_str s.mtime)).isNone

/-- Every visit of a run is safe, in the state in which it actually
executes. -/
def run_safe : MergeState → List SrcFile → Bool
  | _, [] => true
  | st, s :: rest =>
      visit_safe st s &&
        (match merge_file st s with
         | .ok (st1, _) => run_safe st1 rest
         | .error _ => true)

/-- No name in the list is a timestamp-suffixed form of another (or of
itself). -/
def namesSuffixFree (l : List String) : Prop :=
  ∀ a ∈ l, ∀ b ∈ l, ¬ tsSuffixed a b

/-- Every digest list of the ledger is free of duplicates. -/
def NodupLedger (led : Ledger) : Prop :=
  ∀ p hs, ledgerGet led p = some hs → hs.Nodup

/-- The visit takes the newer-and-different branch: a conflict with a
regular file, the source strictly newer, the digests different. -/
def newer_diff_branch (st : MergeState) (s : SrcFile) : Bool :=
  match lookupEntry st.dest s.name with
  | some (.file c t) => decide (s.mtime > t) && !(decide (md5 s.content = md5 c))
  | _ => false

/-- Every digest the ledger records for a path is carried by a file that
is currently at that path or at a timestamp-suffixed sibling of it, and
every tracked path belongs to `N`. -/
def LedgerSites (st : MergeState) (N : List String) : Prop :=
  ∀ p hs, ledgerGet st.ledger p = some hs →
    p ∈ N ∧ ∀ h ∈ hs, HasDigest st.dest p h

theorem contains_iff {l : List String} {a : String} : l.contains a = true ↔ a ∈ l :=
  List.elem_iff

theorem lookupEntry_setEntry_self (d : Dir) (n : String) (e : Entry) :
    lookupEntry (setEntry d n e) n = some e := by
  induction d with
  | nil => simp [setEntry, lookupEntry]
  | cons p rest ih =>
      obtain ⟨n', e'⟩ := p
      by_cases h : n' = n
      · simp [setEntry, h, lookupEntry]
      · simp [setEntry, h, lookupEntry, ih]

theorem lookupEntry_setEntry_ne (d : Dir) {n m : String} (e : Entry) (h : m ≠ n) :
    lookupEntry (setEntry d n e) m = lookupEntry d m := by
  induction d with
  | nil =>
      have hnm : n ≠ m := Ne.symm h
      simp [setEntry, lookupEntry, hnm]
  | cons p rest ih =>
      obtain ⟨n', e'⟩ := p
      by_cases h1 : n' = n
      · have hn'm : n' ≠ m := by rw [h1]; exact Ne.symm h
        have hnm : n ≠ m := Ne.symm h
        simp [setEntry, h1, lookupEntry, hnm, hn'm]
      · by_cases h2 : n' = m
        · simp [setEntry, h1, lookupEntry, h2, h]
        · simp [setEntry, h1, lookupEntry, h2, ih]

theorem lookupEntry_removeEntry_ne (d : Dir) {n m : String} (h : m ≠ n) :
    lookupEntry (removeEntry d n) m = lookupEntry d m := by
  induction d with
  | nil => simp [removeEntry]
  | cons p rest ih =>
      obtain ⟨n', e'⟩ := p
      by_cases h1 : n' = n
      · have h2 : n' ≠ m := by rw [h1]; exact Ne.symm h
        simp [removeEntry, h1, lookupEntry, h2, Ne.symm h]
      · by_cases h2 : n' = m
        · simp [removeEntry, h1, lookupEntry, h2, h]
        · simp [removeEntry, h1, lookupEntry, h2, ih]

theorem ledgerGet_ledgerSet_self (led : Ledger) (p : String) (hs : List String) :
    ledgerGet (ledgerSet led p hs) p = some hs := by
  induction led with
  | nil => simp [ledgerSet, ledgerGet]
  | cons q rest ih =>
      obtain ⟨p', hs'⟩ := q
      by_cases h : p' = p
      · simp [ledgerSet, h, ledgerGet]
      · simp [ledgerSet, h, ledgerGet, ih]

theorem ledgerGet_ledgerSet_ne (led : Ledger) {p q : String} (hs : List String)
    (h : q ≠ p) : ledgerGet (ledgerSet led p hs) q = ledgerGet led q := by
  induction led with
  | nil =>
      have hpq : p ≠ q := Ne.symm h
      simp [ledgerSet, ledgerGet, hpq]
  | cons r rest ih =>
      obtain ⟨p', hs'⟩ := r
      by_cases h1 : p' = p
      · have h2 : p' ≠ q := by rw [h1]; exact Ne.symm h
        have hpq : p ≠ q := Ne.symm h
        simp [ledgerSet, h1, ledgerGet, h2, hpq]
      · by_cases h2 : p' = q
        · simp [ledgerSet, h1, ledgerGet, h2, h]
        · simp [ledgerSet, h1, ledgerGet, h2, ih]

theorem tsSuffixed_length {a b : String} (h : tsSuffixed a b) : a.length < b.length := by
  obtain ⟨t, ht⟩ := h
  subst ht
  rw [String.length_append, String.length_append]
  have h2 : ("--" : String).length = 2 := rfl
  omega

theorem not_tsSuffixed_of_length_le {a b : String} (h : b.length ≤ a.length) :
    ¬ tsSuffixed a b := fun hs => absurd (tsSuffixed_length hs) (by omega)

theorem tsSuffixed_ne {a b : String} (h : tsSuffixed a b) : b ≠ a := by
  intro he
  subst he
  exact absurd (tsSuffixed_length h) (lt_irrefl _)

theorem suffixName_ne (a : String) (t : Int) : a ++ "--" ++ ts_str t ≠ a :=
  tsSuffixed_ne ⟨t, rfl⟩

theorem ledgerGet_assureLedger_self (led : Ledger) (p h : String) :
    ledgerGet (assureLedger led p h) p =
      some (if h ∈ (ledgerGet led p).getD []
            then (ledgerGet led p).getD []
            else (ledgerGet led p).getD [] ++ [h]) := by
  unfold assureLedger
  cases hg : ledgerGet led p with
  | none =>
      simp [hg, ledgerGet_ledgerSet_self]
  | some hs =>
      by_cases hc : h ∈ hs <;>
        simp [hg, hc, ledgerGet_ledgerSet_self]

theorem ledgerGet_assureLedger_ne (led : Ledger) (p h : String) {q : String}
    (hne : q ≠ p) : ledgerGet (assureLedger led p h) q = ledgerGet led q := by
  unfold assureLedger
  cases hg : ledgerGet led p with
  | none =>
      simp [hg, ledgerGet_ledgerSet_self, ledgerGet_ledgerSet_ne, hne]
  | some hs =>
      by_cases hc : h ∈ hs
      · simp [hg, hc]
      · simp [hg, hc, ledgerGet_ledgerSet_ne, hne]

theorem mem_assureLedger_iff (led : Ledger) (p h x : String) :
    x ∈ (ledgerGet (assureLedger led p h) p).getD [] ↔
      x ∈ (ledgerGet led p).getD [] ∨ x = h := by
  rw [ledgerGet_assureLedger_self]
  by_cases hc : h ∈ (ledgerGet led p).getD []
  · simp only [hc, if_true, Option.getD_some]
    constructor
    · exact Or.inl
    · rintro (hx | rfl)
      · exact hx
      · exact hc
  · simp only [hc, if_false, Option.getD_some, List.mem_append, List.mem_singleton]

theorem mem_assureLedger_self (led : Ledger) (p h : String) :
    h ∈ (ledgerGet (assureLedger led p h) p).getD [] :=
  (mem_assureLedger_iff led p h h).mpr (Or.inr rfl)

theorem assureLedger_eq_self (led : Ledger) (p h : String) (hs : List String)
    (hg : ledgerGet led p = some hs) (hmem : h ∈ hs) :
    assureLedger led p h = led := by
  unfold assureLedger
  simp [hg, hmem]

theorem run_visits_nil (st : MergeState) : run_visits st [] = .ok (st, []) := rfl

theorem run_visits_cons_inv (st : MergeState) (s : SrcFile) (rest : List SrcFile)
    {stF : MergeState} {vsF : List SrcFile}
    (h : run_visits st (s :: rest) = .ok (stF, vsF)) :
    ∃ st1 s1 rest1, merge_file st s = .ok (st1, s1) ∧
      run_visits st1 rest = .ok (stF, rest1) ∧ vsF = s1 :: rest1 := by
  unfold run_visits at h
  split at h
  · simp at h
  · rename_i st1 s1 heq1
    split at h
    · simp at h
    · rename_i st2 rest1 heq2
      simp only [Except.ok.injEq, Prod.mk.injEq] at h
      exact ⟨st1, s1, rest1, heq1, by rw [heq2, h.1], h.2.symm⟩

theorem run_visits_error (st : MergeState) (s : SrcFile) (rest : List SrcFile)
    {msg : String} (h : merge_file st s = .error msg) :
    run_visits st (s :: rest) = .error msg := by
  unfold run_visits
  rw [h]

theorem merge_file_absent (st : MergeState) (s : SrcFile)
    (h : lookupEntry st.dest s.name = none) :
    merge_file st s = .ok (⟨setEntry st.dest s.name (.file s.content s.mtime),
      assureLedger st.ledger s.name (md5 s.content)⟩, s) := by
  unfold merge_file
  rw [h]
  simp [assure_dest_hash, lookupEntry_setEntry_self]

theorem merge_file_dir (st : MergeState) (s : SrcFile)
    (h : lookupEntry st.dest s.name = some .dir) :
    merge_file st s = .error ("IsADirectoryError: " ++ s.name) := by
  unfold merge_file
  rw [h]
  simp [assure_dest_hash, h]

theorem merge_file_equal (st : MergeState) (s : SrcFile) (c : String) (t : Int)
    (h : lookupEntry st.dest s.name = some (.file c t)) (heq : s.mtime = t) :
    merge_file st s = .ok (⟨st.dest, assureLedger st.ledger s.name (md5 c)⟩, s) := by
  unfold merge_file
  rw [h]
  simp [assure_dest_hash, h, statMtime, heq]

theorem merge_file_newer_identical (st : MergeState) (s : SrcFile) (c : String)
    (t : Int) (h : lookupEntry st.dest s.name = some (.file c t))
    (hgt : t < s.mtime) (hh : md5 s.content = md5 c) :
    merge_file st s = .ok (⟨st.dest, assureLedger st.ledger s.name (md5 c)⟩, s) := by
  unfold merge_file
  rw [h]
  simp [assure_dest_hash, h, statMtime, hgt, hh]

theorem merge_file_newer_diff_inv (st : MergeState) (s : SrcFile) (c : String)
    (t : Int) {st1 : MergeState} {s1 : SrcFile}
    (h : lookupEntry st.dest s.name = some (.file c t))
    (hgt : t < s.mtime) (hh : ¬ md5 s.content = md5 c)
    (hm : merge_file st s = .ok (st1, s1)) :
    s1 = s ∧
    st1.dest = setEntry (setEntry (removeEntry st.dest s.name)
        (s.name ++ "--" ++ ts_str t) (.file c t)) s.name
        (.file s.content s.mtime) ∧
    st1.ledger = ledgerSet (assureLedger st.ledger s.name (md5 c)) s.name
        ((ledgerGet (assureLedger st.ledger s.name (md5 c)) s.name).getD []
          ++ [md5 s.content]) := by
  unfold merge_file at hm
  rw [h] at hm
  rcases hdst : lookupEntry st.dest (s.name ++ "--" ++ ts_str t) with _ | e2
  · simp only [assure_dest_hash, h, statMtime, move_entry, hdst, hgt, hh, if_true,
      if_false, gt_iff_lt, ite_true, ite_false, Except.ok.injEq, Prod.mk.injEq] at hm
    exact ⟨hm.2.symm, by rw [← hm.1], by rw [← hm.1]⟩
  · cases e2 with
    | file c2 t2 =>
        simp only [assure_dest_hash, h, statMtime, move_entry, hdst, hgt, hh, if_true,
          if_false, gt_iff_lt, ite_true, ite_false, Except.ok.injEq, Prod.mk.injEq] at hm
        exact ⟨hm.2.symm, by rw [← hm.1], by rw [← hm.1]⟩
    | dir =>
        simp [assure_dest_hash, h, statMtime, move_entry, hdst, hgt, hh] at hm

theorem merge_file_older_skip (st : MergeState) (s : SrcFile) (c : String)
    (t : Int) (h : lookupEntry st.dest s.name = some (.file c t))
    (hlt : s.mtime < t)
    (hc : md5 s.content ∈
      (ledgerGet (assureLedger st.ledger s.name (md5 c)) s.name).getD []) :
    merge_file st s = .ok (⟨st.dest, assureLedger st.ledger s.name (md5 c)⟩, s) := by
  unfold merge_file
  rw [h]
  have hngt : ¬ (s.mtime > statMtime (.file c t)) := by
    simp [statMtime]
    omega
  have hne : s.mtime ≠ statMtime (.file c t) := by
    simp [statMtime]
    omega
  simp [assure_dest_hash, h, hngt, hne, hc]

theorem merge_file_older_copy_inv (st : MergeState) (s : SrcFile) (c : String)
    (t : Int) {st1 : MergeState} {s1 : SrcFile}
    (h : lookupEntry st.dest s.name = some (.file c t))
    (hlt : s.mtime < t)
    (hc : ¬ md5 s.content ∈
      (ledgerGet (assureLedger st.ledger s.name (md5 c)) s.name).getD [])
    (hm : merge_file st s = .ok (st1, s1)) :
    s1 = s ∧
    st1.dest = setEntry st.dest (s.name ++ "--" ++ ts_str s.mtime)
        (.file s.content s.mtime) ∧
    st1.ledger = ledgerSet (assureLedger st.ledger s.name (md5 c)) s.name
        ((ledgerGet (assureLedger st.ledger s.name (md5 c)) s.name).getD []
          ++ [md5 s.content]) := by
  unfold merge_file at hm
  rw [h] at hm
  have hngt : ¬ (t < s.mtime) := by omega
  have hne : s.mtime ≠ t := by omega
  have hcc : ¬ (((ledgerGet (assureLedger st.ledger s.name (md5 c)) s.name).getD
      []).contains (md5 s.content) = true) := fun hx => hc (contains_iff.mp hx)
  rcases hdst : lookupEntry st.dest (s.name ++ "--" ++ ts_str s.mtime) with _ | e2
  · simp only [assure_dest_hash, h, statMtime, write_file, hdst, hngt, hne, hcc,
      gt_iff_lt, if_true, if_false, ite_true, ite_false, ne_eq, not_false_eq_true,
      Bool.false_eq_true, Except.ok.injEq, Prod.mk.injEq] at hm
    exact ⟨hm.2.symm, by rw [← hm.1], by rw [← hm.1]⟩
  · cases e2 with
    | file c2 t2 =>
        simp only [assure_dest_hash, h, statMtime, write_file, hdst, hngt, hne, hcc,
          gt_iff_lt, if_true, if_false, ite_true, ite_false, ne_eq, not_false_eq_true,
          Bool.false_eq_true, Except.ok.injEq, Prod.mk.injEq] at hm
        exact ⟨hm.2.symm, by rw [← hm.1], by rw [← hm.1]⟩
    | dir =>
        simp only [assure_dest_hash, h, statMtime, write_file, hdst, hngt, hne, hcc,
          gt_iff_lt, if_true, if_false, ite_true, ite_false, ne_eq, not_false_eq_true,
          Bool.false_eq_true] at hm
        exact Except.noConfusion hm

/-- C1 (code behavior at the failing input): for a conflict with identical
content where the source (mtime 20) is strictly newer than the destination
(mtime 10), the merge leaves the destination entirely unchanged and creates
no file, but line 116 runs `os.utime(source, (s_mod, s_mod))`, so the
source file keeps its own modification time 20 instead of being set to the
destination's time 10 as the claim states. -/
theorem c1_utime_writes_source_own_mtime :
    merge_file ⟨[("f", Entry.file "A" 10)], []⟩ ⟨"f", "A", 20⟩ =
      .ok (⟨[("f", Entry.file "A" 10)], [("f", ["A"])]⟩, ⟨"f", "A", 20⟩) ∧
    (⟨"f", "A", 20⟩ : SrcFile).mtime ≠ (10 : Int) := ⟨rfl, by decide⟩

/-- C3 (counterexample): with equal modification times (both 5) the merge
still computes both hashes and runs `assure_dest_hash` (lines 107–109 run
before the timestamp comparison), so the ledger entry for the destination
path is created — the claim says no hash is computed and the ledger entry
is not created or modified. -/
theorem c3_equal_mtime_ledger_mutated :
    merge_file ⟨[("f", Entry.file "A" 5)], []⟩ ⟨"f", "B", 5⟩ =
      .ok (⟨[("f", Entry.file "A" 5)], [("f", ["A"])]⟩, ⟨"f", "B", 5⟩) ∧
    ledgerGet ([] : Ledger) "f" = none ∧
    ledgerGet [("f", ["A"])] "f" = some ["A"] := ⟨rfl, rfl, rfl⟩

/-- C3 (amended): an equal-timestamp conflict performs no filesystem
change — the destination directory is unchanged and the source file is
untouched, so there is no copy, no rename and no timestamp update — but
both hashes are computed and the ledger entry for the destination path is
created or extended by the ensure operation (`assure_dest_hash`). -/
theorem c3_equal_mtime_no_fs_change (st : MergeState) (s : SrcFile) (c : String)
    (t : Int) {st1 : MergeState} {s1 : SrcFile}
    (h : lookupEntry st.dest s.name = some (.file c t)) (heq : s.mtime = t)
    (hm : merge_file st s = .ok (st1, s1)) :
    st1.dest = st.dest ∧ s1 = s ∧
    st1.ledger = assureLedger st.ledger s.name (md5 c) := by
  rw [merge_file_equal st s c t h heq] at hm
  simp only [Except.ok.injEq, Prod.mk.injEq] at hm
  exact ⟨by rw [← hm.1], hm.2.symm, by rw [← hm.1]⟩

theorem c3_equal_mtime_no_fs_change_witness :
    (⟨[("f", Entry.file "A" 5)], [("f", ["A"])]⟩ : MergeState).dest =
        (⟨[("f", Entry.file "A" 5)], []⟩ : MergeState).dest ∧
    (⟨"f", "B", (5 : Int)⟩ : SrcFile) = ⟨"f", "B", 5⟩ ∧
    (⟨[("f", Entry.file "A" 5)], [("f", ["A"])]⟩ : MergeState).ledger =
      assureLedger [] "f" (md5 "A") :=
  c3_equal_mtime_no_fs_change ⟨[("f", Entry.file "A" 5)], []⟩ ⟨"f", "B", 5⟩
    "A" 5 rfl rfl rfl

/-- C4: for a conflict where the source file (content `s.content`, mtime
`s.mtime`) is strictly newer than the destination file (content `A`, mtime
`t0`) and the digests differ, the destination path holds the source
content with the source's mtime afterwards, the sibling named
`D--<ts_str t0>` holds the old destination content `A` (with mtime `t0`),
and the source digest is recorded in the ledger list for the destination
path. -/
theorem c4_newer_wins_naming (st : MergeState) (s : SrcFile) (A : String)
    (t0 : Int) {st1 : MergeState} {s1 : SrcFile}
    (hd : lookupEntry st.dest s.name = some (.file A t0))
    (ht : t0 < s.mtime) (hne : md5 s.content ≠ md5 A)
    (hm : merge_file st s = .ok (st1, s1)) :
    lookupEntry st1.dest s.name = some (.file s.content s.mtime) ∧
    lookupEntry st1.dest (s.name ++ "--" ++ ts_str t0) = some (.file A t0) ∧
    md5 s.content ∈ (ledgerGet st1.ledger s.name).getD [] := by
  obtain ⟨hs1, hdest, hled⟩ := merge_file_newer_diff_inv st s A t0 hd ht hne hm
  refine ⟨?_, ?_, ?_⟩
  · rw [hdest, lookupEntry_setEntry_self]
  · rw [hdest, lookupEntry_setEntry_ne _ _ (suffixName_ne s.name t0),
      lookupEntry_setEntry_self]
  · rw [hled, ledgerGet_ledgerSet_self]
    simp

theorem c4_newer_wins_naming_witness :
    lookupEntry [("f--1970-01-01--at--00-00-00", Entry.file "A" 0),
        ("f", Entry.file "B" 1)] "f" = some (Entry.file "B" 1) ∧
    lookupEntry [("f--1970-01-01--at--00-00-00", Entry.file "A" 0),
        ("f", Entry.file "B" 1)] ("f" ++ "--" ++ ts_str 0) =
      some (Entry.file "A" 0) ∧
    md5 "B" ∈ (ledgerGet [("f", ["A", "B"])] "f").getD [] := by
  have h := c4_newer_wins_naming ⟨[("f", Entry.file "A" 0)], []⟩ ⟨"f", "B", 1⟩
    "A" 0 rfl (by decide) (by decide) rfl
  exact h

/-- C5: for a conflict where the source file is strictly older than the
destination file (content `A`, mtime `t0`), the digests differ, and the
source digest is not yet in the ledger list for the destination path, the
destination file is unchanged and a file named `D--<ts_str s.mtime>`
exists afterwards with the source content and the source mtime. -/
theorem c5_older_preserved (st : MergeState) (s : SrcFile) (A : String)
    (t0 : Int) {st1 : MergeState} {s1 : SrcFile}
    (hd : lookupEntry st.dest s.name = some (.file A t0))
    (hlt : s.mtime < t0) (hne : md5 s.content ≠ md5 A)
    (hnl : md5 s.content ∉ (ledgerGet st.ledger s.name).getD [])
    (hm : merge_file st s = .ok (st1, s1)) :
    lookupEntry st1.dest s.name = some (.file A t0) ∧
    lookupEntry st1.dest (s.name ++ "--" ++ ts_str s.mtime) =
      some (.file s.content s.mtime) := by
  have hc : ¬ md5 s.content ∈
      (ledgerGet (assureLedger st.ledger s.name (md5 A)) s.name).getD [] := by
    rw [mem_assureLedger_iff]
    rintro (hx | hx)
    · exact hnl hx
    · exact hne hx
  obtain ⟨hs1, hdest, hled⟩ := merge_file_older_copy_inv st s A t0 hd hlt hc hm
  refine ⟨?_, ?_⟩
  · rw [hdest,
      lookupEntry_setEntry_ne _ _ (Ne.symm (suffixName_ne s.name s.mtime))]
    exact hd
  · rw [hdest, lookupEntry_setEntry_self]

theorem c5_older_preserved_witness :
    lookupEntry [("f", Entry.file "A" 9),
        ("f--1970-01-01--at--00-00-04", Entry.file "B" 4)] "f" =
      some (Entry.file "A" 9) ∧
    lookupEntry [("f", Entry.file "A" 9),
        ("f--1970-01-01--at--00-00-04", Entry.file "B" 4)]
        ("f" ++ "--" ++ ts_str 4) = some (Entry.file "B" 4) := by
  have h := c5_older_preserved ⟨[("f", Entry.file "A" 9)], []⟩ ⟨"f", "B", 4⟩
    "A" 9 rfl (by decide) (by decide) (by simp [ledgerGet]) rfl
  exact h

/-- C6: when two source files with the same destination path and identical
content, with distinct modification times both strictly older than the
destination file's, are visited one after the other, the second visit is a
complete no-op (it is skipped because the content digest is already in the
ledger list for that path): the state after both visits equals the state
after the first, so at most one preserved copy is created for that
content. -/
theorem c6_no_duplicate_preservation (st0 : MergeState) (p A B : String)
    (t0 t1 t2 : Int) {st1 st2 : MergeState} {r1 r2 : SrcFile}
    (hd : lookupEntry st0.dest p = some (.file A t0))
    (h1 : t1 < t0) (h2 : t2 < t0) (hne : t1 ≠ t2)
    (hm1 : merge_file st0 ⟨p, B, t1⟩ = .ok (st1, r1))
    (hm2 : merge_file st1 ⟨p, B, t2⟩ = .ok (st2, r2)) :
    st2 = st1 := by
  have key : lookupEntry st1.dest p = some (.file A t0) ∧
      ∃ L, ledgerGet st1.ledger p = some L ∧ md5 A ∈ L ∧ md5 B ∈ L := by
    by_cases hmem : md5 B ∈
        (ledgerGet (assureLedger st0.ledger p (md5 A)) p).getD []
    · rw [merge_file_older_skip st0 ⟨p, B, t1⟩ A t0 hd h1 hmem] at hm1
      simp only [Except.ok.injEq, Prod.mk.injEq] at hm1
      have hst1 : st1 = ⟨st0.dest, assureLedger st0.ledger p (md5 A)⟩ :=
        hm1.1.symm
      subst hst1
      refine ⟨hd, ?_⟩
      refine ⟨(ledgerGet (assureLedger st0.ledger p (md5 A)) p).getD [],
        ?_, mem_assureLedger_self st0.ledger p (md5 A), hmem⟩
      rw [ledgerGet_assureLedger_self, Option.getD_some]
    · obtain ⟨hr1, hdest, hled⟩ :=
        merge_file_older_copy_inv st0 ⟨p, B, t1⟩ A t0 hd h1 hmem hm1
      refine ⟨?_, ?_⟩
      · rw [hdest,
          lookupEntry_setEntry_ne _ _ (Ne.symm (suffixName_ne p t1))]
        exact hd
      · refine ⟨(ledgerGet (assureLedger st0.ledger p (md5 A)) p).getD []
          ++ [md5 B], ?_, ?_, ?_⟩
        · rw [hled, ledgerGet_ledgerSet_self]
        · exact List.mem_append_left _ (mem_assureLedger_self st0.ledger p (md5 A))
        · exact List.mem_append_right _ (List.mem_singleton.mpr rfl)
  obtain ⟨hd1, L, hgL, hAL, hBL⟩ := key
  have hmem2 : md5 B ∈
      (ledgerGet (assureLedger st1.ledger p (md5 A)) p).getD [] := by
    rw [mem_assureLedger_iff]
    left
    rw [hgL]
    exact hBL
  rw [merge_file_older_skip st1 ⟨p, B, t2⟩ A t0 hd1 h2 hmem2] at hm2
  simp only [Except.ok.injEq, Prod.mk.injEq] at hm2
  have hassure : assureLedger st1.ledger p (md5 A) = st1.ledger :=
    assureLedger_eq_self st1.ledger p (md5 A) L hgL hAL
  rw [← hm2.1, hassure]

theorem c6_no_duplicate_preservation_witness :
    (⟨[("f", Entry.file "A" 10),
        ("f--1970-01-01--at--00-00-05", Entry.file "B" 5)],
      [("f", ["A", "B"])]⟩ : MergeState) =
    ⟨[("f", Entry.file "A" 10),
        ("f--1970-01-01--at--00-00-05", Entry.file "B" 5)],
      [("f", ["A", "B"])]⟩ :=
  c6_no_duplicate_preservation ⟨[("f", Entry.file "A" 10)], []⟩ "f" "A" "B"
    10 5 3 rfl (by decide) (by decide) (by decide) rfl rfl

/-- C9 (amended): every supplied source path is checked with
`os.path.isdir` before any merge work; when all pass, the run processes
exactly the given roots and finishes with exit status 0, and when some
source is not a directory the process exits with status -1 and an error
message naming a failing path, before any root is processed.  (An empty
source list passes validation vacuously, see the counterexample.) -/
theorem c9_source_validation (sources : List String) (isdir : String → Bool) :
    ((∀ src ∈ sources, isdir src = true) →
      main_model sources isdir = .completed sources ∧
      exitCodeOf (main_model sources isdir) = 0) ∧
    (∀ bad ∈ sources, isdir bad = false →
      ∃ b, b ∈ sources ∧ isdir b = false ∧
        main_model sources isdir =
          .argError (-1) ("ERROR: source path " ++ b ++ " does not exist") ∧
        exitCodeOf (main_model sources isdir) ≠ 0) := by
  cases hf : sources.find? (fun src => !(isdir src)) with
  | none =>
      constructor
      · intro _
        constructor
        · simp [main_model, hf]
        · simp [main_model, hf, exitCodeOf]
      · intro bad hmem hbad
        have := List.find?_eq_none.mp hf bad hmem
        simp [hbad] at this
  | some b =>
      have hpb := List.find?_some hf
      have hbmem : b ∈ sources := List.mem_of_find?_eq_some hf
      have hbdir : isdir b = false := by simpa using hpb
      constructor
      · intro hall
        exact absurd (hall b hbmem) (by simp [hbdir])
      · intro bad hmem hbad
        refine ⟨b, hbmem, hbdir, ?_, ?_⟩
        · simp [main_model, hf]
        · simp [main_model, hf, exitCodeOf]

theorem c9_source_validation_witness :
    main_model ["s"] (fun _ => true) = .completed ["s"] ∧
    exitCodeOf (main_model ["s"] (fun _ => true)) = 0 :=
  (c9_source_validation ["s"] (fun _ => true)).1 (fun _ _ => rfl)

/-- C9 (counterexample): an empty source list is accepted — validation
passes vacuously (`nargs='*'` binds zero or more sources), the run merges
nothing and exits with status 0 — although the claim requires at least
one source path and a non-zero exit on violation.  The `isdir` oracle
here rejects every path, so no valid source exists at all. -/
theorem c9_empty_sources_accepted :
    main_model [] (fun _ => false) = .completed [] ∧
    exitCodeOf (main_model [] (fun _ => false)) = 0 := ⟨rfl, rfl⟩

/-- C10: type mismatches abort the run with an unhandled error and touch
nothing: creating a destination directory where a regular file already
sits fails with `FileExistsError` (lines 80–81), and merging a source
file onto a destination path occupied by a directory fails inside
`assure_dest_hash` with `IsADirectoryError` (line 109 via lines 53–54),
which also aborts the enclosing run. -/
theorem c10_type_mismatch_aborts (d : Dir) (n c : String) (t : Int)
    (st : MergeState) (s : SrcFile) (rest : List SrcFile)
    (hf : lookupEntry d n = some (.file c t))
    (hdir : lookupEntry st.dest s.name = some .dir) :
    ensure_dest_dir d n = .error ("FileExistsError: " ++ n) ∧
    merge_file st s = .error ("IsADirectoryError: " ++ s.name) ∧
    run_visits st (s :: rest) = .error ("IsADirectoryError: " ++ s.name) := by
  refine ⟨?_, merge_file_dir st s hdir,
    run_visits_error st s rest (merge_file_dir st s hdir)⟩
  unfold ensure_dest_dir
  rw [hf]

theorem c10_type_mismatch_aborts_witness :
    ensure_dest_dir [("f", Entry.file "A" 1)] "f" =
      .error ("FileExistsError: " ++ "f") ∧
    merge_file ⟨[("d", Entry.dir)], []⟩ ⟨"d", "X", 3⟩ =
      .error ("IsADirectoryError: " ++ "d") ∧
    run_visits ⟨[("d", Entry.dir)], []⟩ [⟨"d", "X", 3⟩] =
      .error ("IsADirectoryError: " ++ "d") :=
  c10_type_mismatch_aborts [("f", Entry.file "A" 1)] "f" "A" 1
    ⟨[("d", Entry.dir)], []⟩ ⟨"d", "X", 3⟩ [] rfl rfl

/-- All files present before a visit survive it: each either stays under
its name unchanged, or — only for the visited name, in the
newer-and-different branch — is renamed to its own name extended with the
timestamp suffix of its modification time. -/
def StepPreserves (d d1 : Dir) (base : String) : Prop :=
  ∀ n e, lookupEntry d n = some e →
    lookupEntry d1 n = some e ∨
      (n = base ∧ lookupEntry d1 (n ++ "--" ++ ts_str (statMtime e)) = some e)

theorem visit_sites (st : MergeState) (s : SrcFile) {st1 : MergeState}
    {s1 : SrcFile} (hm : merge_file st s = .ok (st1, s1))
    (hsafe : visit_safe st s = true) :
    StepPreserves st.dest st1.dest s.name := by
  intro n e hn
  cases hde : lookupEntry st.dest s.name with
  | none =>
      rw [merge_file_absent st s hde] at hm
      simp only [Except.ok.injEq, Prod.mk.injEq] at hm
      have hdest : st1.dest = setEntry st.dest s.name (.file s.content s.mtime) := by
        rw [← hm.1]
      have hne : n ≠ s.name := by
        intro hx
        rw [hx, hde] at hn
        exact Option.noConfusion hn
      left
      rw [hdest, lookupEntry_setEntry_ne _ _ hne]
      exact hn
  | some e0 =>
      cases e0 with
      | dir => simp [visit_safe, hde] at hsafe
      | file c t =>
          by_cases heq : s.mtime = t
          · simp [visit_safe, hde, heq] at hsafe
          · by_cases hgt : t < s.mtime
            · by_cases hhash : md5 s.content = md5 c
              · rw [merge_file_newer_identical st s c t hde hgt hhash] at hm
                simp only [Except.ok.injEq, Prod.mk.injEq] at hm
                have hdest : st1.dest = st.dest := by rw [← hm.1]
                left
                rw [hdest]
                exact hn
              · have hfresh :
                    lookupEntry st.dest (s.name ++ "--" ++ ts_str t) = none := by
                  simp only [visit_safe, hde, heq, if_false, hgt, gt_iff_lt,
                    if_true, Bool.or_eq_true, decide_eq_true_eq,
                    Option.isNone_iff_eq_none, ite_true, ite_false] at hsafe
                  rcases hsafe with hx | hx
                  · exact absurd hx hhash
                  · exact hx
                obtain ⟨hs1, hdest, hled⟩ :=
                  merge_file_newer_diff_inv st s c t hde hgt hhash hm
                by_cases hns : n = s.name
                · subst hns
                  have he : e = Entry.file c t :=
                    Option.some.inj (hn.symm.trans hde)
                  right
                  refine ⟨rfl, ?_⟩
                  rw [he]
                  simp only [statMtime]
                  rw [hdest]
                  rw [lookupEntry_setEntry_ne _ _ (suffixName_ne s.name t)]
                  rw [lookupEntry_setEntry_self]
                · left
                  rw [hdest]
                  rw [lookupEntry_setEntry_ne _ _ hns]
                  have hnmoved : n ≠ s.name ++ "--" ++ ts_str t := by
                    intro hx
                    rw [hx, hfresh] at hn
                    exact Option.noConfusion hn
                  rw [lookupEntry_setEntry_ne _ _ hnmoved]
                  rw [lookupEntry_removeEntry_ne _ hns]
                  exact hn
            · have hlt : s.mtime < t := by omega
              by_cases hmem : md5 s.content ∈
                  (ledgerGet (assureLedger st.ledger s.name (md5 c)) s.name).getD []
              · rw [merge_file_older_skip st s c t hde hlt hmem] at hm
                simp only [Except.ok.injEq, Prod.mk.injEq] at hm
                have hdest : st1.dest = st.dest := by rw [← hm.1]
                left
                rw [hdest]
                exact hn
              · have hfresh :
                    lookupEntry st.dest (s.name ++ "--" ++ ts_str s.mtime)
                      = none := by
                  have hngt : ¬ (t < s.mtime) := by omega
                  simp only [visit_safe, hde, heq, if_false, hngt, gt_iff_lt,
                    Bool.or_eq_true, Option.isNone_iff_eq_none, ite_true,
                    ite_false] at hsafe
                  rcases hsafe with hx | hx
                  · exact absurd (contains_iff.mp hx) hmem
                  · exact hx
                obtain ⟨hs1, hdest, hled⟩ :=
                  merge_file_older_copy_inv st s c t hde hlt hmem hm
                have hnsuf : n ≠ s.name ++ "--" ++ ts_str s.mtime := by
                  intro hx
                  rw [hx, hfresh] at hn
                  exact Option.noConfusion hn
                left
                rw [hdest, lookupEntry_setEntry_ne _ _ hnsuf]
                exact hn

theorem hasDigest_lift {d d1 : Dir} {base h sname : String}
    (hsp : StepPreserves d d1 sname) (hfar : ¬ tsSuffixed base sname)
    (hd : HasDigest d base h) : HasDigest d1 base h := by
  obtain ⟨n, c, t, hat, hn, hmd⟩ := hd
  rcases hsp n (.file c t) hn with hkeep | ⟨hns, hmoved⟩
  · exact ⟨n, c, t, hat, hkeep, hmd⟩
  · subst hns
    rcases hat with hbase | hsuf
    · subst hbase
      simp only [statMtime] at hmoved
      exact ⟨n ++ "--" ++ ts_str t, c, t, Or.inr ⟨t, rfl⟩, hmoved, hmd⟩
    · exact absurd hsuf hfar

theorem visit_adds (st : MergeState) (s : SrcFile) {st1 : MergeState}
    {s1 : SrcFile} (hm : merge_file st s = .ok (st1, s1))
    (hsafe : visit_safe st s = true)
    (hsound : ∀ h, h ∈ (ledgerGet st.ledger s.name).getD [] →
      HasDigest st.dest s.name h) :
    HasDigest st1.dest s.name (md5 s.content) := by
  cases hde : lookupEntry st.dest s.name with
  | none =>
      rw [merge_file_absent st s hde] at hm
      simp only [Except.ok.injEq, Prod.mk.injEq] at hm
      have hdest : st1.dest = setEntry st.dest s.name (.file s.content s.mtime) := by
        rw [← hm.1]
      exact ⟨s.name, s.content, s.mtime, Or.inl rfl,
        by rw [hdest, lookupEntry_setEntry_self], rfl⟩
  | some e0 =>
      cases e0 with
      | dir => simp [visit_safe, hde] at hsafe
      | file c t =>
          by_cases heq : s.mtime = t
          · simp [visit_safe, hde, heq] at hsafe
          · by_cases hgt : t < s.mtime
            · by_cases hhash : md5 s.content = md5 c
              · rw [merge_file_newer_identical st s c t hde hgt hhash] at hm
                simp only [Except.ok.injEq, Prod.mk.injEq] at hm
                have hdest : st1.dest = st.dest := by rw [← hm.1]
                exact ⟨s.name, c, t, Or.inl rfl, by rw [hdest]; exact hde,
                  hhash.symm⟩
              · obtain ⟨hs1, hdest, hled⟩ :=
                  merge_file_newer_diff_inv st s c t hde hgt hhash hm
                exact ⟨s.name, s.content, s.mtime, Or.inl rfl,
                  by rw [hdest, lookupEntry_setEntry_self], rfl⟩
            · have hlt : s.mtime < t := by omega
              by_cases hmem : md5 s.content ∈
                  (ledgerGet (assureLedger st.ledger s.name (md5 c)) s.name).getD []
              · rw [merge_file_older_skip st s c t hde hlt hmem] at hm
                simp only [Except.ok.injEq, Prod.mk.injEq] at hm
                have hdest : st1.dest = st.dest := by rw [← hm.1]
                rw [mem_assureLedger_iff] at hmem
                rcases hmem with hold | hnew
                · obtain ⟨n, c2, t2, hat, hn, hmd⟩ := hsound _ hold
                  exact ⟨n, c2, t2, hat, by rw [hdest]; exact hn, hmd⟩
                · exact ⟨s.name, c, t, Or.inl rfl, by rw [hdest]; exact hde,
                    hnew.symm⟩
              · obtain ⟨hs1, hdest, hled⟩ :=
                  merge_file_older_copy_inv st s c t hde hlt hmem hm
                exact ⟨s.name ++ "--" ++ ts_str s.mtime, s.content, s.mtime,
                  Or.inr ⟨s.mtime, rfl⟩,
                  by rw [hdest, lookupEntry_setEntry_self], rfl⟩

theorem visit_ledger (st : MergeState) (s : SrcFile) {st1 : MergeState}
    {s1 : SrcFile} (hm : merge_file st s = .ok (st1, s1)) :
    ∀ q hsq, ledgerGet st1.ledger q = some hsq →
      ledgerGet st.ledger q = some hsq ∨
      (q = s.name ∧ ∀ x ∈ hsq,
        x ∈ (ledgerGet st.ledger q).getD [] ∨ HasDigest st1.dest q x) := by
  intro q hsq hq
  by_cases hqs : q = s.name
  case neg =>
    left
    cases hde : lookupEntry st.dest s.name with
    | none =>
        rw [merge_file_absent st s hde] at hm
        simp only [Except.ok.injEq, Prod.mk.injEq] at hm
        have hled : st1.ledger = assureLedger st.ledger s.name (md5 s.content) := by
          rw [← hm.1]
        rw [hled, ledgerGet_assureLedger_ne _ _ _ hqs] at hq
        exact hq
    | some e0 =>
        cases e0 with
        | dir =>
            rw [merge_file_dir st s hde] at hm
            exact Except.noConfusion hm
        | file c t =>
            by_cases heq : s.mtime = t
            · rw [merge_file_equal st s c t hde heq] at hm
              simp only [Except.ok.injEq, Prod.mk.injEq] at hm
              have hled : st1.ledger = assureLedger st.ledger s.name (md5 c) := by
                rw [← hm.1]
              rw [hled, ledgerGet_assureLedger_ne _ _ _ hqs] at hq
              exact hq
            · by_cases hgt : t < s.mtime
              · by_cases hhash : md5 s.content = md5 c
                · rw [merge_file_newer_identical st s c t hde hgt hhash] at hm
                  simp only [Except.ok.injEq, Prod.mk.injEq] at hm
                  have hled : st1.ledger =
                      assureLedger st.ledger s.name (md5 c) := by
                    rw [← hm.1]
                  rw [hled, ledgerGet_assureLedger_ne _ _ _ hqs] at hq
                  exact hq
                · obtain ⟨hs1, hdest, hled⟩ :=
                    merge_file_newer_diff_inv st s c t hde hgt hhash hm
                  rw [hled, ledgerGet_ledgerSet_ne _ _ hqs,
                    ledgerGet_assureLedger_ne _ _ _ hqs] at hq
                  exact hq
              · have hlt : s.mtime < t := by omega
                by_cases hmem : md5 s.content ∈
                    (ledgerGet (assureLedger st.ledger s.name (md5 c))
                      s.name).getD []
                · rw [merge_file_older_skip st s c t hde hlt hmem] at hm
                  simp only [Except.ok.injEq, Prod.mk.injEq] at hm
                  have hled : st1.ledger =
                      assureLedger st.ledger s.name (md5 c) := by
                    rw [← hm.1]
                  rw [hled, ledgerGet_assureLedger_ne _ _ _ hqs] at hq
                  exact hq
                · obtain ⟨hs1, hdest, hled⟩ :=
                    merge_file_older_copy_inv st s c t hde hlt hmem hm
                  rw [hled, ledgerGet_ledgerSet_ne _ _ hqs,
                    ledgerGet_assureLedger_ne _ _ _ hqs] at hq
                  exact hq
  case pos =>
    subst hqs
    right
    refine ⟨rfl, ?_⟩
    intro x hx
    cases hde : lookupEntry st.dest s.name with
    | none =>
        rw [merge_file_absent st s hde] at hm
        simp only [Except.ok.injEq, Prod.mk.injEq] at hm
        have hled : st1.ledger = assureLedger st.ledger s.name (md5 s.content) := by
          rw [← hm.1]
        have hdest : st1.dest = setEntry st.dest s.name (.file s.content s.mtime) := by
          rw [← hm.1]
        rw [hled] at hq
        have hx2 : x ∈ (ledgerGet (assureLedger st.ledger s.name (md5 s.content))
            s.name).getD [] := by
          rw [hq]
          exact hx
        rw [mem_assureLedger_iff] at hx2
        rcases hx2 with hold | hnew
        · exact Or.inl hold
        · refine Or.inr ⟨s.name, s.content, s.mtime, Or.inl rfl, ?_, hnew.symm⟩
          rw [hdest, lookupEntry_setEntry_self]
    | some e0 =>
        cases e0 with
        | dir =>
            rw [merge_file_dir st s hde] at hm
            exact Except.noConfusion hm
        | file c t =>
            by_cases heq : s.mtime = t
            · rw [merge_file_equal st s c t hde heq] at hm
              simp only [Except.ok.injEq, Prod.mk.injEq] at hm
              have hled : st1.ledger = assureLedger st.ledger s.name (md5 c) := by
                rw [← hm.1]
              have hdest : st1.dest = st.dest := by rw [← hm.1]
              rw [hled] at hq
              have hx2 : x ∈ (ledgerGet (assureLedger st.ledger s.name (md5 c))
                  s.name).getD [] := by
                rw [hq]
                exact hx
              rw [mem_assureLedger_iff] at hx2
              rcases hx2 with hold | hnew
              · exact Or.inl hold
              · exact Or.inr ⟨s.name, c, t, Or.inl rfl,
                  by rw [hdest]; exact hde, hnew.symm⟩
            · by_cases hgt : t < s.mtime
              · by_cases hhash : md5 s.content = md5 c
                · rw [merge_file_newer_identical st s c t hde hgt hhash] at hm
                  simp only [Except.ok.injEq, Prod.mk.injEq] at hm
                  have hled : st1.ledger = assureLedger st.ledger s.name (md5 c) := by
                    rw [← hm.1]
                  have hdest : st1.dest = st.dest := by rw [← hm.1]
                  rw [hled] at hq
                  have hx2 : x ∈ (ledgerGet (assureLedger st.ledger s.name (md5 c))
                      s.name).getD [] := by
                    rw [hq]
                    exact hx
                  rw [mem_assureLedger_iff] at hx2
                  rcases hx2 with hold | hnew
                  · exact Or.inl hold
                  · exact Or.inr ⟨s.name, c, t, Or.inl rfl,
                      by rw [hdest]; exact hde, hnew.symm⟩
                · obtain ⟨hs1, hdest, hled⟩ :=
                    merge_file_newer_diff_inv st s c t hde hgt hhash hm
                  rw [hled, ledgerGet_ledgerSet_self] at hq
                  have hx2 : x ∈ (ledgerGet (assureLedger st.ledger s.name (md5 c))
                      s.name).getD [] ++ [md5 s.content] := by
                    rw [← Option.some.inj hq] at hx
                    exact hx
                  rcases List.mem_append.mp hx2 with hin | hnew
                  · rw [mem_assureLedger_iff] at hin
                    rcases hin with hold | hnew2
                    · exact Or.inl hold
                    · refine Or.inr ⟨s.name ++ "--" ++ ts_str t, c, t,
                        Or.inr ⟨t, rfl⟩, ?_, hnew2.symm⟩
                      rw [hdest,
                        lookupEntry_setEntry_ne _ _ (suffixName_ne s.name t),
                        lookupEntry_setEntry_self]
                  · refine Or.inr ⟨s.name, s.content, s.mtime, Or.inl rfl, ?_,
                      (List.mem_singleton.mp hnew).symm⟩
                    rw [hdest, lookupEntry_setEntry_self]
              · have hlt : s.mtime < t := by omega
                by_cases hmem : md5 s.content ∈
                    (ledgerGet (assureLedger st.ledger s.name (md5 c)) s.name).getD []
                · rw [merge_file_older_skip st s c t hde hlt hmem] at hm
                  simp only [Except.ok.injEq, Prod.mk.injEq] at hm
                  have hled : st1.ledger = assureLedger st.ledger s.name (md5 c) := by
                    rw [← hm.1]
                  have hdest : st1.dest = st.dest := by rw [← hm.1]
                  rw [hled] at hq
                  have hx2 : x ∈ (ledgerGet (assureLedger st.ledger s.name (md5 c))
                      s.name).getD [] := by
                    rw [hq]
                    exact hx
                  rw [mem_assureLedger_iff] at hx2
                  rcases hx2 with hold | hnew
                  · exact Or.inl hold
                  · exact Or.inr ⟨s.name, c, t, Or.inl rfl,
                      by rw [hdest]; exact hde, hnew.symm⟩
                · obtain ⟨hs1, hdest, hled⟩ :=
                    merge_file_older_copy_inv st s c t hde hlt hmem hm
                  rw [hled, ledgerGet_ledgerSet_self] at hq
                  have hx2 : x ∈ (ledgerGet (assureLedger st.ledger s.name (md5 c))
                      s.name).getD [] ++ [md5 s.content] := by
                    rw [← Option.some.inj hq] at hx
                    exact hx
                  rcases List.mem_append.mp hx2 with hin | hnew
                  · rw [mem_assureLedger_iff] at hin
                    rcases hin with hold | hnew2
                    · exact Or.inl hold
                    · refine Or.inr ⟨s.name, c, t, Or.inl rfl, ?_, hnew2.symm⟩
                      rw [hdest, lookupEntry_setEntry_ne _ _
                        (Ne.symm (suffixName_ne s.name s.mtime))]
                      exact hde
                  · refine Or.inr ⟨s.name ++ "--" ++ ts_str s.mtime, s.content,
                      s.mtime, Or.inr ⟨s.mtime, rfl⟩, ?_,
                      (List.mem_singleton.mp hnew).symm⟩
                    rw [hdest, lookupEntry_setEntry_self]

theorem run_aux : ∀ (vs : List SrcFile) (N : List String) (st : MergeState)
    (stF : MergeState) (vsF : List SrcFile),
    run_visits st vs = .ok (stF, vsF) →
    run_safe st vs = true →
    (∀ a ∈ N ++ vs.map SrcFile.name, ∀ b ∈ N ++ vs.map SrcFile.name,
      ¬ tsSuffixed a b) →
    LedgerSites st N →
    (∀ base h, base ∈ N → HasDigest st.dest base h → HasDigest stF.dest base h) ∧
    (∀ s ∈ vs, HasDigest stF.dest s.name (md5 s.content)) ∧
    LedgerSites stF (N ++ vs.map SrcFile.name)
  | [], N, st, stF, vsF, hrun, hsafe, hnames, hsites => by
      rw [run_visits_nil] at hrun
      simp only [Except.ok.injEq, Prod.mk.injEq] at hrun
      have hst : stF = st := hrun.1.symm
      subst hst
      refine ⟨fun base h _ hd => hd,
        fun s hs => absurd hs (List.not_mem_nil s), ?_⟩
      simpa using hsites
  | s :: rest, N, st, stF, vsF, hrun, hsafe, hnames, hsites => by
      obtain ⟨st1, s1, rest1, hm, hrun1, hvsF⟩ := run_visits_cons_inv st s rest hrun
      have hsafe2 : visit_safe st s = true ∧ run_safe st1 rest = true := by
        unfold run_safe at hsafe
        rw [hm] at hsafe
        simpa [Bool.and_eq_true] using hsafe
      obtain ⟨hv, hr⟩ := hsafe2
      have hsname : s.name ∈ N ++ (s :: rest).map SrcFile.name := by simp
      have hsp := visit_sites st s hm hv
      have hsound_sname : ∀ h, h ∈ (ledgerGet st.ledger s.name).getD [] →
          HasDigest st.dest s.name h := by
        intro h hh
        cases hg : ledgerGet st.ledger s.name with
        | none =>
            rw [hg] at hh
            simp at hh
        | some hs0 =>
            rw [hg, Option.getD_some] at hh
            exact (hsites s.name hs0 hg).2 h hh
      have hadds := visit_adds st s hm hv hsound_sname
      have hlift : ∀ base hdig, base ∈ N ++ (s :: rest).map SrcFile.name →
          HasDigest st.dest base hdig → HasDigest st1.dest base hdig :=
        fun base hdig hbase hd =>
          hasDigest_lift hsp (hnames base hbase s.name hsname) hd
      have hsites1 : LedgerSites st1 (N ++ [s.name]) := by
        intro p hsp2 hp
        rcases visit_ledger st s hm p hsp2 hp with hold | ⟨hpeq, hchar⟩
        · obtain ⟨hpN, hsound⟩ := hsites p hsp2 hold
          refine ⟨by simp [hpN], fun h hh => ?_⟩
          exact hlift p h (by simp [hpN]) (hsound h hh)
        · subst hpeq
          refine ⟨by simp, fun h hh => ?_⟩
          rcases hchar h hh with hold2 | hdig
          · exact hlift s.name h hsname (hsound_sname h hold2)
          · exact hdig
      have hnames1 : ∀ a ∈ (N ++ [s.name]) ++ rest.map SrcFile.name,
          ∀ b ∈ (N ++ [s.name]) ++ rest.map SrcFile.name, ¬ tsSuffixed a b := by
        intro a ha b hb
        apply hnames
        · simp only [List.mem_append, List.mem_singleton, List.map_cons,
            List.mem_cons] at ha ⊢
          tauto
        · simp only [List.mem_append, List.mem_singleton, List.map_cons,
            List.mem_cons] at hb ⊢
          tauto
      obtain ⟨ih1, ih2, ih3⟩ :=
        run_aux rest (N ++ [s.name]) st1 stF rest1 hrun1 hr hnames1 hsites1
      refine ⟨?_, ?_, ?_⟩
      · intro base h hbN hd
        exact ih1 base h (by simp [hbN]) (hlift base h (by simp [hbN]) hd)
      · intro s2 hs2
        rcases List.mem_cons.mp hs2 with rfl | hs2r
        · exact ih1 s2.name (md5 s2.content) (by simp) hadds
        · exact ih2 s2 hs2r
      · have h3 := ih3
        rw [List.append_assoc] at h3
        simpa using h3

/-- C2 (amended): under the conditions that make a run free of the two
destructive corner cases — no visit is an equal-timestamp conflict and no
generated timestamp-suffixed target name is already occupied
(`run_safe`), and no visited name is itself a timestamp-suffixed form of
a visited name (`namesSuffixFree`) — every file of the visit sequence is
preserved: when the run (started with the empty ledger, as at process
start) completes, a file whose digest equals the source file's digest
exists at the source file's destination path or at a timestamp-suffixed
sibling of it.  Without those conditions content can be lost, see the
counterexample. -/
theorem c2_content_preservation (dest0 : Dir) (vs : List SrcFile)
    {stF : MergeState} {vsF : List SrcFile}
    (hrun : run_visits ⟨dest0, []⟩ vs = .ok (stF, vsF))
    (hsafe : run_safe ⟨dest0, []⟩ vs = true)
    (hnames : namesSuffixFree (vs.map SrcFile.name))
    (s : SrcFile) (hs : s ∈ vs) :
    HasDigest stF.dest s.name (md5 s.content) := by
  have hnames2 : ∀ a ∈ ([] : List String) ++ vs.map SrcFile.name,
      ∀ b ∈ ([] : List String) ++ vs.map SrcFile.name, ¬ tsSuffixed a b := by
    intro a ha b hb
    rw [List.nil_append] at ha hb
    exact hnames a ha b hb
  have hsites : LedgerSites ⟨dest0, []⟩ [] := by
    intro p hs0 hp
    simp [ledgerGet] at hp
  exact (run_aux vs [] ⟨dest0, []⟩ stF vsF hrun hsafe hnames2 hsites).2.1 s hs

theorem c2_content_preservation_witness :
    HasDigest [("f", Entry.file "A" 10),
      ("f--1970-01-01--at--00-00-05", Entry.file "B" 5)] "f" (md5 "B") := by
  have hnames : namesSuffixFree
      (List.map SrcFile.name [(⟨"f", "B", 5⟩ : SrcFile)]) := by
    intro a ha b hb
    simp only [List.map_cons, List.map_nil, List.mem_singleton] at ha hb
    subst ha
    subst hb
    exact not_tsSuffixed_of_length_le (le_refl _)
  exact c2_content_preservation [("f", Entry.file "A" 10)] [⟨"f", "B", 5⟩]
    rfl rfl hnames ⟨"f", "B", 5⟩ (by simp)

/-- C2 (counterexample): an equal-timestamp conflict with different
content loses the source content.  Destination `f` holds "A" at time 5
and the source holds "B" at the same time 5; the run completes, the
destination tree is unchanged, and no file under the path or any
timestamp-suffixed sibling carries the digest of "B" — the source
content is gone, although the claim says no source content is ever
lost. -/
theorem c2_equal_mtime_content_lost :
    run_visits ⟨[("f", Entry.file "A" 5)], []⟩ [⟨"f", "B", 5⟩] =
      .ok (⟨[("f", Entry.file "A" 5)], [("f", ["A"])]⟩, [⟨"f", "B", 5⟩]) ∧
    ¬ HasDigest [("f", Entry.file "A" 5)] "f" (md5 "B") := by
  refine ⟨rfl, ?_⟩
  rintro ⟨n, c, t, hat, hn, hmd⟩
  simp only [lookupEntry] at hn
  by_cases h : ("f" : String) = n
  · rw [if_pos h] at hn
    obtain ⟨hc, ht⟩ := Entry.file.inj (Option.some.inj hn)
    rw [← hc] at hmd
    exact absurd hmd (by decide)
  · rw [if_neg h] at hn
    exact Option.noConfusion hn

/-- C7 (code behavior at the failing input): destination `f` holds "A" at
time 10; root one supplies `f` = "A" at time 20 (newer, identical) and
root two supplies `f` = "B" at time 15 (newer, different).  Because line
116 writes the source's own mtime instead of the destination's, the first
run does not normalise the first source's timestamp; the second run over
the unchanged sources then renames `f` away to `f--<ts 15>` and installs
"A" at `f` — a new file and changed content/mtime — so the destination
tree after the second run differs from the tree after the first, although
the claim promises a no-op. -/
theorem c7_rerun_not_idempotent :
    run_visits ⟨[("f", Entry.file "A" 10)], []⟩
        [⟨"f", "A", 20⟩, ⟨"f", "B", 15⟩] =
      .ok (⟨[("f--1970-01-01--at--00-00-10", Entry.file "A" 10),
             ("f", Entry.file "B" 15)], [("f", ["A", "B"])]⟩,
           [⟨"f", "A", 20⟩, ⟨"f", "B", 15⟩]) ∧
    run_visits ⟨[("f--1970-01-01--at--00-00-10", Entry.file "A" 10),
                 ("f", Entry.file "B" 15)], []⟩
        [⟨"f", "A", 20⟩, ⟨"f", "B", 15⟩] =
      .ok (⟨[("f--1970-01-01--at--00-00-10", Entry.file "A" 10),
             ("f--1970-01-01--at--00-00-15", Entry.file "B" 15),
             ("f", Entry.file "A" 20)], [("f", ["B", "A"])]⟩,
           [⟨"f", "A", 20⟩, ⟨"f", "B", 15⟩]) ∧
    ([("f--1970-01-01--at--00-00-10", Entry.file "A" 10),
      ("f--1970-01-01--at--00-00-15", Entry.file "B" 15),
      ("f", Entry.file "A" 20)] : Dir) ≠
      [("f--1970-01-01--at--00-00-10", Entry.file "A" 10),
       ("f", Entry.file "B" 15)] := ⟨rfl, rfl, by decide⟩

theorem assureLedger_nodup (led : Ledger) (p h : String)
    (hnd : NodupLedger led) : NodupLedger (assureLedger led p h) := by
  intro q hs hq
  by_cases hqp : q = p
  · subst hqp
    rw [ledgerGet_assureLedger_self] at hq
    have hs_eq := Option.some.inj hq
    by_cases hmem : h ∈ (ledgerGet led q).getD []
    · rw [if_pos hmem] at hs_eq
      cases hg : ledgerGet led q with
      | none =>
          rw [hg] at hs_eq
          rw [← hs_eq]
          exact List.nodup_nil
      | some hs0 =>
          rw [hg, Option.getD_some] at hs_eq
          rw [← hs_eq]
          exact hnd q hs0 hg
    · rw [if_neg hmem] at hs_eq
      cases hg : ledgerGet led q with
      | none =>
          rw [hg] at hs_eq
          rw [← hs_eq]
          simp
      | some hs0 =>
          rw [hg, Option.getD_some] at hs_eq
          rw [← hs_eq, ← List.concat_eq_append]
          refine List.Nodup.concat ?_ (hnd q hs0 hg)
          rw [hg, Option.getD_some] at hmem
          exact hmem
  · rw [ledgerGet_assureLedger_ne _ _ _ hqp] at hq
    exact hnd q hs hq

/-- C8 (amended): the ensure operation (`assure_dest_hash`) and the
older-and-different recording have set semantics — a digest already in a
path's list is never added again, so every visit that does not take the
newer-and-different branch preserves freedom from duplicates across the
whole ledger.  The newer-and-different branch's recording (line 127)
appends unconditionally and can duplicate a digest, see the
counterexample. -/
theorem c8_ledger_set_semantics (st : MergeState) (s : SrcFile)
    {st1 : MergeState} {s1 : SrcFile}
    (hm : merge_file st s = .ok (st1, s1))
    (hnb : newer_diff_branch st s = false)
    (hnd : NodupLedger st.ledger) : NodupLedger st1.ledger := by
  cases hde : lookupEntry st.dest s.name with
  | none =>
      rw [merge_file_absent st s hde] at hm
      simp only [Except.ok.injEq, Prod.mk.injEq] at hm
      have hled : st1.ledger = assureLedger st.ledger s.name (md5 s.content) := by
        rw [← hm.1]
      rw [hled]
      exact assureLedger_nodup _ _ _ hnd
  | some e0 =>
      cases e0 with
      | dir =>
          rw [merge_file_dir st s hde] at hm
          exact Except.noConfusion hm
      | file c t =>
          by_cases heq : s.mtime = t
          · rw [merge_file_equal st s c t hde heq] at hm
            simp only [Except.ok.injEq, Prod.mk.injEq] at hm
            have hled : st1.ledger = assureLedger st.ledger s.name (md5 c) := by
              rw [← hm.1]
            rw [hled]
            exact assureLedger_nodup _ _ _ hnd
          · by_cases hgt : t < s.mtime
            · by_cases hhash : md5 s.content = md5 c
              · rw [merge_file_newer_identical st s c t hde hgt hhash] at hm
                simp only [Except.ok.injEq, Prod.mk.injEq] at hm
                have hled : st1.ledger = assureLedger st.ledger s.name (md5 c) := by
                  rw [← hm.1]
                rw [hled]
                exact assureLedger_nodup _ _ _ hnd
              · exfalso
                simp [newer_diff_branch, hde, hgt, hhash] at hnb
            · have hlt : s.mtime < t := by omega
              by_cases hmem : md5 s.content ∈
                  (ledgerGet (assureLedger st.ledger s.name (md5 c)) s.name).getD []
              · rw [merge_file_older_skip st s c t hde hlt hmem] at hm
                simp only [Except.ok.injEq, Prod.mk.injEq] at hm
                have hled : st1.ledger = assureLedger st.ledger s.name (md5 c) := by
                  rw [← hm.1]
                rw [hled]
                exact assureLedger_nodup _ _ _ hnd
              · obtain ⟨hs1, hdest, hled⟩ :=
                  merge_file_older_copy_inv st s c t hde hlt hmem hm
                intro q hs hq
                by_cases hqs : q = s.name
                · subst hqs
                  rw [hled, ledgerGet_ledgerSet_self] at hq
                  rw [← Option.some.inj hq, ← List.concat_eq_append]
                  refine List.Nodup.concat hmem ?_
                  have hself := ledgerGet_assureLedger_self st.ledger s.name (md5 c)
                  have hnodup := assureLedger_nodup st.ledger s.name (md5 c) hnd
                  have := hnodup s.name _ hself
                  rw [hself, Option.getD_some]
                  exact this
                · rw [hled, ledgerGet_ledgerSet_ne _ _ hqs,
                    ledgerGet_assureLedger_ne _ _ _ hqs] at hq
                  exact hnd q hs hq

theorem c8_ledger_set_semantics_witness : NodupLedger [("f", ["A"])] :=
  c8_ledger_set_semantics ⟨[("f", Entry.file "A" 5)], []⟩ ⟨"f", "B", 5⟩ rfl rfl
    (fun _ _ h => Option.noConfusion h)

/-- C8 (counterexample): a reachable run in which a digest is added twice
to the same path's list.  Destination `f` holds "A" at time 10; an older
source "B" at time 5 is preserved and its digest recorded; a newer source
"B" at time 20 then takes the newer-and-different branch, whose line 127
appends the digest of "B" again without a membership check, leaving the
list `["A", "B", "B"]` — not duplicate-free, contrary to the claimed
invariant. -/
theorem c8_duplicate_append :
    run_visits ⟨[("f", Entry.file "A" 10)], []⟩
        [⟨"f", "B", 5⟩, ⟨"f", "B", 20⟩] =
      .ok (⟨[("f--1970-01-01--at--00-00-05", Entry.file "B" 5),
             ("f--1970-01-01--at--00-00-10", Entry.file "A" 10),
             ("f", Entry.file "B" 20)],
            [("f", ["A", "B", "B"])]⟩,
           [⟨"f", "B", 5⟩, ⟨"f", "B", 20⟩]) ∧
    ¬ NodupLedger [("f", ["A", "B", "B"])] := by
  refine ⟨rfl, ?_⟩
  intro hnd
  have h := hnd "f" ["A", "B", "B"] rfl
  exact absurd h (by decide)

end Deepmerge





